import Mathlib

/-!
Shallow embedding of the pronunciation-scoring core of the
voice-recognition repository.

The two source files each define a text normalizer (`clean_text`) and a
greedy Levenshtein-based scorer (`calculate_word_accuracy`):

* `src/app.py` (namespace `App` below): `clean_text` is
  `text.lower().strip()`; the scorer guards the flag update and the
  similarity addition with one combined condition
  `best_match_score > 0 and best_match_index != -1`.
* `src/test_model_accuracy.py` (namespace `Batch` below): `clean_text`
  first removes every character matching `[^\w\s]` with `re.sub`, then
  lowercases and strips; the scorer guards the similarity addition with
  `best_match_score > 0` alone and the flag update with a nested
  `best_match_index != -1`.

Modelling conventions:

* Python strings are `List Char`; the character predicates and the
  per-character lowercasing model the ASCII fragment of Python's
  Unicode-aware `str.lower`, `str.split` whitespace, `\w` and `\s`
  (every concrete input appearing in the claims is ASCII).
* Python floats are modelled exactly by `ℚ`; `int` counts by `Nat`.
* Python's `/`, which raises `ZeroDivisionError` on a zero divisor, is
  modelled by `pyDiv : ℚ → ℚ → Option ℚ`; a raised exception propagates
  as `none` through the scorer, whose result type is therefore
  `Option ℚ`.
* The sentinel `best_match_index = -1` is modelled by `none : Option Nat`.
-/

/-- ASCII fragment of the whitespace class used by Python's `str.split`,
`str.strip` and `\s`: space, tab, newline, carriage return, vertical
tab, form feed. -/
def pyIsSpace (c : Char) : Bool :=
  c.toNat = 32 || c.toNat = 9 || c.toNat = 10 || c.toNat = 13 ||
    c.toNat = 11 || c.toNat = 12

/-- ASCII alphanumeric characters: digits `0`-`9`, letters `A`-`Z` and
`a`-`z` (ASCII fragment of Python's `str.isalnum`). -/
def pyIsAlnum (c : Char) : Bool :=
  (48 ≤ c.toNat && c.toNat ≤ 57) || (65 ≤ c.toNat && c.toNat ≤ 90) ||
    (97 ≤ c.toNat && c.toNat ≤ 122)

/-- ASCII fragment of the regex class `\w`: alphanumeric characters plus
the underscore (code point 95). -/
def pyIsWordChar (c : Char) : Bool :=
  pyIsAlnum c || c.toNat = 95

/-- ASCII upper-case letters `A`-`Z`. -/
def pyIsUpper (c : Char) : Bool :=
  65 ≤ c.toNat && c.toNat ≤ 90

/-- ASCII fragment of Python's `str.lower`, applied per character:
`A`-`Z` shift down by 32, everything else is fixed. -/
def pyToLower (c : Char) : Char :=
  if pyIsUpper c then Char.ofNat (c.toNat + 32) else c

/-- Python's `str.strip()`: drop leading and trailing whitespace. -/
def pyStrip (s : List Char) : List Char :=
  ((s.dropWhile pyIsSpace).reverse.dropWhile pyIsSpace).reverse

/-- Worker for `pySplit`; `acc` holds the characters of the word
currently being read, in reverse order. -/
def pySplitAux : List Char → List Char → List (List Char)
  | [], acc => if acc = [] then [] else [acc.reverse]
  | c :: cs, acc =>
    if pyIsSpace c then
      if acc = [] then pySplitAux cs [] else acc.reverse :: pySplitAux cs []
    else
      pySplitAux cs (c :: acc)

/-- Python's `str.split()` with no argument: split on runs of
whitespace, never producing empty words. -/
def pySplit (s : List Char) : List (List Char) :=
  pySplitAux s []

/-- Python's true division on numbers, which raises `ZeroDivisionError`
when the divisor is zero; the raise is modelled as `none`. -/
def pyDiv (a b : ℚ) : Option ℚ :=
  if b = 0 then none else some (a / b)

/-- One step of the Levenshtein recurrence: the distance from `x :: xs`
(where `xs` has length `xsLen` and `f` is the distance function of
`xs`) to the second argument. Structural in the second argument. -/
def levCons (x : Char) (xsLen : Nat) (f : List Char → Nat) : List Char → Nat
  | [] => xsLen + 1
  | y :: ys =>
    min ((if x = y then 0 else 1) + f ys)
      (min (levCons x xsLen f ys + 1) (f (y :: ys) + 1))

/-- Levenshtein edit distance between two character lists (minimum
number of single-character insertions, deletions and substitutions),
modelling `Levenshtein.distance` from the `Levenshtein` package. -/
def lev : List Char → List Char → Nat
  | [], ys => ys.length
  | x :: xs, ys => levCons x xs.length (lev xs) ys

/-- The per-word similarity computed inline in both scorers:
`1.0 - distance / max(len(trans_word), len(exp_word))`. There is no
special case for two empty words: the division raises (is `none`)
when `max(len(a), len(b)) = 0`. -/
def wordSim (a b : List Char) : Option ℚ :=
  (pyDiv (lev a b : ℚ) ((max a.length b.length : Nat) : ℚ)).map (fun q => 1 - q)

/-- The inner loop shared verbatim by both scorers: scan the expected
words `es` (whose matched flags are `fs`, current position `i`),
keeping the strictly best similarity seen so far (`best`, with index
`idx`; the Python sentinel `-1` is `none`). A flags list shorter than
the expected list is an `IndexError` (`none`); extra flags are ignored,
as in Python. -/
def bestScan (t : List Char) :
    List (List Char) → List Bool → Nat → ℚ → Option Nat → Option (ℚ × Option Nat)
  | [], _, _, best, idx => some (best, idx)
  | e :: es, f :: fs, i, best, idx =>
    if f then
      bestScan t es fs (i + 1) best idx
    else
      match wordSim t e with
      | none => none
      | some s =>
        if best < s then
          bestScan t es fs (i + 1) s (some i)
        else
          bestScan t es fs (i + 1) best idx
  | _ :: _, [], _, _, _ => none

/-- Outer loop of `calculate_word_accuracy` in `src/app.py`: the flag
update and the similarity addition share the single condition
`best_match_score > 0 and best_match_index != -1`. -/
def scoreLoopApp (exp : List (List Char)) :
    List (List Char) → List Bool → ℚ → Option ℚ
  | [], _, tot => some tot
  | t :: ts, flags, tot =>
    match bestScan t exp flags 0 0 none with
    | none => none
    | some (best, idx) =>
      if 0 < best ∧ idx ≠ none then
        scoreLoopApp exp ts (flags.set (idx.getD 0) true) (tot + best)
      else
        scoreLoopApp exp ts flags tot

/-- Outer loop of `calculate_word_accuracy` in
`src/test_model_accuracy.py`: the similarity addition is guarded by
`best_match_score > 0` alone, and the flag update by a nested
`best_match_index != -1`. -/
def scoreLoopBatch (exp : List (List Char)) :
    List (List Char) → List Bool → ℚ → Option ℚ
  | [], _, tot => some tot
  | t :: ts, flags, tot =>
    match bestScan t exp flags 0 0 none with
    | none => none
    | some (best, idx) =>
      if 0 < best then
        scoreLoopBatch exp ts
          (if idx ≠ none then flags.set (idx.getD 0) true else flags)
          (tot + best)
      else
        scoreLoopBatch exp ts flags tot

namespace App

/-- `clean_text` from `src/app.py`: `text.lower().strip()`. -/
def clean_text (text : List Char) : List Char :=
  pyStrip (text.map pyToLower)

/-- `calculate_word_accuracy` from `src/app.py`. -/
def calculate_word_accuracy (transcribed_text expected_text : List Char) : Option ℚ :=
  let transcribed_words := pySplit (clean_text transcribed_text)
  let expected_words := pySplit (clean_text expected_text)
  if expected_words = [] then
    some (if transcribed_words = [] then 100 else 0)
  else if transcribed_words = [] then
    some 0
  else
    match scoreLoopApp expected_words transcribed_words
        (List.replicate expected_words.length false) 0 with
    | none => none
    | some tot => (pyDiv tot (expected_words.length : ℚ)).map (fun q => q * 100)

end App

namespace Batch

/-- `clean_text` from `src/test_model_accuracy.py`:
`re.sub(r'[^\w\s]', '', text).lower().strip()`. -/
def clean_text (text : List Char) : List Char :=
  pyStrip ((text.filter (fun c => pyIsWordChar c || pyIsSpace c)).map pyToLower)

/-- `calculate_word_accuracy` from `src/test_model_accuracy.py`. -/
def calculate_word_accuracy (transcribed_text expected_text : List Char) : Option ℚ :=
  let transcribed_words := pySplit (clean_text transcribed_text)
  let expected_words := pySplit (clean_text expected_text)
  if expected_words = [] then
    some (if transcribed_words = [] then 100 else 0)
  else if transcribed_words = [] then
    some 0
  else
    match scoreLoopBatch expected_words transcribed_words
        (List.replicate expected_words.length false) 0 with
    | none => none
    | some tot => (pyDiv tot (expected_words.length : ℚ)).map (fun q => q * 100)

end Batch

/-- The external interface of the spec, `score_word_accuracy`: the
online scorer of `src/app.py` composing normalization and the greedy
aligner. -/
def score_word_accuracy (transcribed expected : List Char) : Option ℚ :=
  App.calculate_word_accuracy transcribed expected

/-- Number of `false` entries in a flags list. -/
def countFalse : List Bool → Nat
  | [] => 0
  | b :: bs => (if b then 0 else 1) + countFalse bs

/-! ### Basic lemmas about the embedded primitives -/

theorem lev_nil_left (ys : List Char) : lev [] ys = ys.length := rfl

theorem lev_cons_nil (x : Char) (xs : List Char) : lev (x :: xs) [] = xs.length + 1 := rfl

theorem lev_cons_cons (x y : Char) (xs ys : List Char) :
    lev (x :: xs) (y :: ys) =
      min ((if x = y then 0 else 1) + lev xs ys)
        (min (lev (x :: xs) ys + 1) (lev xs (y :: ys) + 1)) := rfl

theorem lev_self : ∀ xs : List Char, lev xs xs = 0
  | [] => rfl
  | x :: xs => by
    rw [lev_cons_cons, lev_self xs]
    simp

theorem lev_le_max : ∀ xs ys : List Char, lev xs ys ≤ max xs.length ys.length
  | [], ys => by
    simp [lev_nil_left]
  | x :: xs, [] => by
    simp [lev_cons_nil]
  | x :: xs, y :: ys => by
    have ih := lev_le_max xs ys
    have hc : (if x = y then 0 else 1) ≤ 1 := by split <;> omega
    rw [lev_cons_cons]
    simp only [List.length_cons]
    omega

theorem wordSim_eq (a b : List Char) (h : max a.length b.length ≠ 0) :
    wordSim a b = some (1 - (lev a b : ℚ) / ((max a.length b.length : Nat) : ℚ)) := by
  have h' : ((max a.length b.length : Nat) : ℚ) ≠ 0 := by
    exact_mod_cast h
  rw [wordSim, pyDiv, if_neg h']
  rfl

theorem wordSim_bounds (a b : List Char) (hb : b ≠ []) :
    ∃ s, wordSim a b = some s ∧ 0 ≤ s ∧ s ≤ 1 := by
  have hbl : 0 < b.length := List.length_pos.mpr hb
  have hm : max a.length b.length ≠ 0 := by omega
  have hm' : (0 : ℚ) < ((max a.length b.length : Nat) : ℚ) := by
    exact_mod_cast Nat.pos_of_ne_zero hm
  refine ⟨_, wordSim_eq a b hm, ?_, ?_⟩
  · have hd : ((lev a b : Nat) : ℚ) ≤ ((max a.length b.length : Nat) : ℚ) := by
      exact_mod_cast lev_le_max a b
    have : (lev a b : ℚ) / ((max a.length b.length : Nat) : ℚ) ≤ 1 :=
      (div_le_one hm').mpr hd
    linarith
  · have : 0 ≤ (lev a b : ℚ) / ((max a.length b.length : Nat) : ℚ) :=
      div_nonneg (by positivity) (le_of_lt hm')
    linarith

theorem wordSim_self (w : List Char) (hw : w ≠ []) : wordSim w w = some 1 := by
  have hwl : 0 < w.length := List.length_pos.mpr hw
  have hm : max w.length w.length ≠ 0 := by omega
  rw [wordSim_eq w w hm, lev_self w]
  norm_num

theorem toNat_ofNat_valid (n : Nat) (h : n.isValidChar) : (Char.ofNat n).toNat = n := by
  rw [Char.ofNat, dif_pos h]
  rfl

theorem pyToLower_toNat_of_upper (c : Char) (h : pyIsUpper c = true) :
    (pyToLower c).toNat = c.toNat + 32 := by
  have h' : 65 ≤ c.toNat ∧ c.toNat ≤ 90 := by
    simpa [pyIsUpper] using h
  rw [pyToLower, if_pos h]
  exact toNat_ofNat_valid _ (Or.inl (by omega))

theorem pyToLower_of_not_upper (c : Char) (h : pyIsUpper c = false) : pyToLower c = c := by
  rw [pyToLower, h]
  rfl

theorem pyIsSpace_pyToLower (c : Char) : pyIsSpace (pyToLower c) = pyIsSpace c := by
  by_cases h : pyIsUpper c = true
  · have hn := pyToLower_toNat_of_upper c h
    have h' : 65 ≤ c.toNat ∧ c.toNat ≤ 90 := by simpa [pyIsUpper] using h
    have h1 : pyIsSpace (pyToLower c) = false := by
      rw [Bool.eq_false_iff]
      intro hx
      simp only [pyIsSpace, hn, Bool.or_eq_true, decide_eq_true_eq] at hx
      omega
    have h2 : pyIsSpace c = false := by
      rw [Bool.eq_false_iff]
      intro hx
      simp only [pyIsSpace, Bool.or_eq_true, decide_eq_true_eq] at hx
      omega
    rw [h1, h2]
  · rw [pyToLower_of_not_upper c (by simpa using h)]

theorem pyIsWordChar_pyToLower (c : Char) (h : pyIsWordChar c = true) :
    pyIsWordChar (pyToLower c) = true := by
  by_cases hu : pyIsUpper c = true
  · have hn := pyToLower_toNat_of_upper c hu
    have h' : 65 ≤ c.toNat ∧ c.toNat ≤ 90 := by simpa [pyIsUpper] using hu
    simp only [pyIsWordChar, pyIsAlnum, hn, Bool.or_eq_true, Bool.and_eq_true,
      decide_eq_true_eq]
    omega
  · rwa [pyToLower_of_not_upper c (by simpa using hu)]

theorem pyToLower_of_space (c : Char) (h : pyIsSpace c = true) : pyToLower c = c := by
  apply pyToLower_of_not_upper
  rw [Bool.eq_false_iff]
  intro hu
  simp only [pyIsUpper, Bool.and_eq_true, decide_eq_true_eq] at hu
  simp only [pyIsSpace, Bool.or_eq_true, decide_eq_true_eq] at h
  omega

theorem mem_of_mem_dropWhile {p : Char → Bool} :
    ∀ (l : List Char) (c : Char), c ∈ l.dropWhile p → c ∈ l
  | [], c, h => by simp at h
  | a :: l, c, h => by
    rw [List.dropWhile_cons] at h
    split at h
    · exact List.mem_cons_of_mem a (mem_of_mem_dropWhile l c h)
    · exact h

theorem mem_of_mem_pyStrip {s : List Char} {c : Char} (h : c ∈ pyStrip s) : c ∈ s := by
  unfold pyStrip at h
  rw [List.mem_reverse] at h
  have h1 := mem_of_mem_dropWhile _ _ h
  rw [List.mem_reverse] at h1
  exact mem_of_mem_dropWhile _ _ h1

theorem pySplitAux_mem :
    ∀ (s acc : List Char), (∀ c ∈ acc, pyIsSpace c = false) →
      ∀ w ∈ pySplitAux s acc, w ≠ [] ∧ ∀ c ∈ w, pyIsSpace c = false ∧ (c ∈ s ∨ c ∈ acc)
  | [], acc, hacc, w, hw => by
    simp only [pySplitAux] at hw
    split at hw
    · simp at hw
    · rename_i hne
      simp only [List.mem_singleton] at hw
      subst hw
      refine ⟨by simp only [ne_eq, List.reverse_eq_nil_iff]; exact hne, fun c hc => ?_⟩
      rw [List.mem_reverse] at hc
      exact ⟨hacc c hc, Or.inr hc⟩
  | c0 :: cs, acc, hacc, w, hw => by
    simp only [pySplitAux] at hw
    by_cases hsp : pyIsSpace c0
    · rw [if_pos hsp] at hw
      by_cases hae : acc = []
      · rw [if_pos hae] at hw
        have h := pySplitAux_mem cs [] (by simp) w hw
        refine ⟨h.1, fun c hc => ⟨(h.2 c hc).1, ?_⟩⟩
        rcases (h.2 c hc).2 with h' | h'
        · exact Or.inl (List.mem_cons_of_mem _ h')
        · simp at h'
      · rw [if_neg hae] at hw
        rcases List.mem_cons.mp hw with rfl | hw'
        · refine ⟨by simp only [ne_eq, List.reverse_eq_nil_iff]; exact hae, fun c hc => ?_⟩
          rw [List.mem_reverse] at hc
          exact ⟨hacc c hc, Or.inr hc⟩
        · have h := pySplitAux_mem cs [] (by simp) w hw'
          refine ⟨h.1, fun c hc => ⟨(h.2 c hc).1, ?_⟩⟩
          rcases (h.2 c hc).2 with h' | h'
          · exact Or.inl (List.mem_cons_of_mem _ h')
          · simp at h'
    · rw [if_neg hsp] at hw
      have hacc' : ∀ c ∈ c0 :: acc, pyIsSpace c = false := by
        intro c hc
        rcases List.mem_cons.mp hc with rfl | hc
        · simpa using hsp
        · exact hacc c hc
      have h := pySplitAux_mem cs (c0 :: acc) hacc' w hw
      refine ⟨h.1, fun c hc => ⟨(h.2 c hc).1, ?_⟩⟩
      rcases (h.2 c hc).2 with h' | h'
      · exact Or.inl (List.mem_cons_of_mem _ h')
      · rcases List.mem_cons.mp h' with rfl | h'
        · exact Or.inl (List.mem_cons_self _ _)
        · exact Or.inr h'

theorem pySplit_ne_nil {s : List Char} : ∀ w ∈ pySplit s, w ≠ [] :=
  fun w hw => (pySplitAux_mem s [] (by simp) w hw).1

theorem pySplit_chars {s w : List Char} {c : Char} (hw : w ∈ pySplit s) (hc : c ∈ w) :
    pyIsSpace c = false ∧ c ∈ s := by
  have h := (pySplitAux_mem s [] (by simp) w hw).2 c hc
  refine ⟨h.1, ?_⟩
  rcases h.2 with h' | h'
  · exact h'
  · simp at h'

theorem countFalse_replicate : ∀ n : Nat, countFalse (List.replicate n false) = n
  | 0 => rfl
  | n + 1 => by
    rw [List.replicate_succ]
    rw [show countFalse (false :: List.replicate n false)
          = 1 + countFalse (List.replicate n false) from rfl]
    rw [countFalse_replicate n]
    omega

theorem countFalse_set :
    ∀ (fs : List Bool) (k : Nat), fs.getD k true = false →
      countFalse (fs.set k true) + 1 = countFalse fs
  | [], k, h => by simp at h
  | f :: fs, 0, h => by
    simp only [List.getD_cons_zero] at h
    subst h
    rw [show (false :: fs).set 0 true = true :: fs from rfl]
    rw [show countFalse (true :: fs) = 0 + countFalse fs from rfl]
    rw [show countFalse (false :: fs) = 1 + countFalse fs from rfl]
    omega
  | f :: fs, k + 1, h => by
    simp only [List.getD_cons_succ] at h
    rw [show (f :: fs).set (k + 1) true = f :: fs.set k true from rfl]
    rw [show countFalse (f :: fs.set k true)
          = (if f then 0 else 1) + countFalse (fs.set k true) from rfl]
    rw [show countFalse (f :: fs) = (if f then 0 else 1) + countFalse fs from rfl]
    have := countFalse_set fs k h
    omega

/-! ### Stepping lemmas for the inner scan -/

theorem bestScan_nil (t : List Char) (fs : List Bool) (i : Nat) (best : ℚ)
    (idx : Option Nat) : bestScan t [] fs i best idx = some (best, idx) := rfl

theorem bestScan_no_flags (t e : List Char) (es : List (List Char)) (i : Nat) (best : ℚ)
    (idx : Option Nat) : bestScan t (e :: es) [] i best idx = none := rfl

theorem bestScan_cons_true (t e : List Char) (es : List (List Char)) (fs : List Bool)
    (i : Nat) (best : ℚ) (idx : Option Nat) :
    bestScan t (e :: es) (true :: fs) i best idx = bestScan t es fs (i + 1) best idx := by
  simp [bestScan]

theorem bestScan_cons_false_none (t e : List Char) (es : List (List Char)) (fs : List Bool)
    (i : Nat) (best : ℚ) (idx : Option Nat) (h : wordSim t e = none) :
    bestScan t (e :: es) (false :: fs) i best idx = none := by
  simp [bestScan, h]

theorem bestScan_cons_false_some (t e : List Char) (es : List (List Char)) (fs : List Bool)
    (i : Nat) (best : ℚ) (idx : Option Nat) (s : ℚ) (h : wordSim t e = some s) :
    bestScan t (e :: es) (false :: fs) i best idx =
      if best < s then bestScan t es fs (i + 1) s (some i)
      else bestScan t es fs (i + 1) best idx := by
  simp [bestScan, h]

theorem bestScan_spec (t : List Char) :
    ∀ (es : List (List Char)) (fs : List Bool) (i : Nat) (best : ℚ) (idx : Option Nat),
      es.length ≤ fs.length → (∀ e ∈ es, e ≠ []) → 0 ≤ best → best ≤ 1 →
      ∃ p : ℚ × Option Nat, bestScan t es fs i best idx = some p ∧
        best ≤ p.1 ∧ p.1 ≤ 1 ∧
        (p = (best, idx) ∨
          ∃ k, k < es.length ∧ fs.getD k true = false ∧ p.2 = some (i + k) ∧ 0 < p.1)
  | [], fs, i, best, idx, _, _, _, h1 =>
    ⟨(best, idx), rfl, le_refl best, h1, Or.inl rfl⟩
  | e :: es, [], i, best, idx, hlen, _, _, _ => by
    simp at hlen
  | e :: es, f :: fs, i, best, idx, hlen, hne, h0, h1 => by
    have hlen' : es.length ≤ fs.length := by
      simpa using hlen
    have hne' : ∀ w ∈ es, w ≠ [] := fun w hw => hne w (List.mem_cons_of_mem _ hw)
    by_cases hf : f = true
    · subst hf
      rw [bestScan_cons_true]
      obtain ⟨p, hp, hb, hb1, hcase⟩ := bestScan_spec t es fs (i + 1) best idx hlen' hne' h0 h1
      refine ⟨p, hp, hb, hb1, ?_⟩
      rcases hcase with h | ⟨k, hk, hfk, hp2, hpos⟩
      · exact Or.inl h
      · refine Or.inr ⟨k + 1, by simpa using Nat.succ_lt_succ hk, by simpa using hfk, ?_, hpos⟩
        rw [hp2]
        congr 1
        omega
    · have hf' : f = false := by simpa using hf
      subst hf'
      obtain ⟨s, hs, hs0, hs1⟩ := wordSim_bounds t e (hne e (List.mem_cons_self _ _))
      rw [bestScan_cons_false_some t e es fs i best idx s hs]
      by_cases hlt : best < s
      · rw [if_pos hlt]
        obtain ⟨p, hp, hb, hb1, hcase⟩ :=
          bestScan_spec t es fs (i + 1) s (some i) hlen' hne' hs0 hs1
        refine ⟨p, hp, le_trans (le_of_lt hlt) hb, hb1, ?_⟩
        rcases hcase with h | ⟨k, hk, hfk, hp2, hpos⟩
        · refine Or.inr ⟨0, by simp, by simp, ?_, ?_⟩
          · rw [h]
            simp
          · rw [h]
            exact lt_of_le_of_lt h0 hlt
        · refine Or.inr ⟨k + 1, by simpa using Nat.succ_lt_succ hk, by simpa using hfk, ?_, hpos⟩
          rw [hp2]
          congr 1
          omega
      · rw [if_neg hlt]
        obtain ⟨p, hp, hb, hb1, hcase⟩ :=
          bestScan_spec t es fs (i + 1) best idx hlen' hne' h0 h1
        refine ⟨p, hp, hb, hb1, ?_⟩
        rcases hcase with h | ⟨k, hk, hfk, hp2, hpos⟩
        · exact Or.inl h
        · refine Or.inr ⟨k + 1, by simpa using Nat.succ_lt_succ hk, by simpa using hfk, ?_, hpos⟩
          rw [hp2]
          congr 1
          omega

/-! ### Stepping lemmas and invariants for the outer loops -/

theorem scoreLoopApp_nil (exp : List (List Char)) (flags : List Bool) (tot : ℚ) :
    scoreLoopApp exp [] flags tot = some tot := rfl

theorem scoreLoopBatch_nil (exp : List (List Char)) (flags : List Bool) (tot : ℚ) :
    scoreLoopBatch exp [] flags tot = some tot := rfl

theorem scoreLoopApp_cons_err (exp : List (List Char)) (t : List Char)
    (ts : List (List Char)) (flags : List Bool) (tot : ℚ)
    (h : bestScan t exp flags 0 0 none = none) :
    scoreLoopApp exp (t :: ts) flags tot = none := by
  simp [scoreLoopApp, h]

theorem scoreLoopBatch_cons_err (exp : List (List Char)) (t : List Char)
    (ts : List (List Char)) (flags : List Bool) (tot : ℚ)
    (h : bestScan t exp flags 0 0 none = none) :
    scoreLoopBatch exp (t :: ts) flags tot = none := by
  simp [scoreLoopBatch, h]

theorem scoreLoopApp_cons (exp : List (List Char)) (t : List Char)
    (ts : List (List Char)) (flags : List Bool) (tot : ℚ) (b : ℚ) (ix : Option Nat)
    (h : bestScan t exp flags 0 0 none = some (b, ix)) :
    scoreLoopApp exp (t :: ts) flags tot =
      if 0 < b ∧ ix ≠ none then
        scoreLoopApp exp ts (flags.set (ix.getD 0) true) (tot + b)
      else
        scoreLoopApp exp ts flags tot := by
  simp [scoreLoopApp, h]

theorem scoreLoopBatch_cons (exp : List (List Char)) (t : List Char)
    (ts : List (List Char)) (flags : List Bool) (tot : ℚ) (b : ℚ) (ix : Option Nat)
    (h : bestScan t exp flags 0 0 none = some (b, ix)) :
    scoreLoopBatch exp (t :: ts) flags tot =
      if 0 < b then
        scoreLoopBatch exp ts (if ix ≠ none then flags.set (ix.getD 0) true else flags)
          (tot + b)
      else
        scoreLoopBatch exp ts flags tot := by
  simp [scoreLoopBatch, h]

theorem scoreLoopApp_spec (exp : List (List Char)) (hexp : ∀ e ∈ exp, e ≠ []) :
    ∀ (ts : List (List Char)) (flags : List Bool) (tot : ℚ),
      exp.length ≤ flags.length →
      ∃ q, scoreLoopApp exp ts flags tot = some q ∧
        tot ≤ q ∧ q ≤ tot + (countFalse flags : ℚ)
  | [], flags, tot, _ =>
    ⟨tot, rfl, le_refl tot, le_add_of_nonneg_right (by positivity)⟩
  | t :: ts, flags, tot, hlen => by
    obtain ⟨p, hp, _, hb1, hcase⟩ :=
      bestScan_spec t exp flags 0 0 none hlen hexp (le_refl 0) (by norm_num)
    obtain ⟨b, ix⟩ := p
    rw [scoreLoopApp_cons exp t ts flags tot b ix hp]
    rcases hcase with heq | ⟨k, hk, hfk, hp2, hpos⟩
    · have hb : b = 0 := by
        have := congrArg Prod.fst heq
        simpa using this
      rw [if_neg (by rw [hb]; rintro ⟨h, -⟩; exact lt_irrefl 0 h)]
      exact scoreLoopApp_spec exp hexp ts flags tot hlen
    · simp only at hp2
      have hix : ix = some k := by simpa using hp2
      rw [if_pos ⟨by simpa using hpos, by rw [hix]; simp⟩]
      obtain ⟨q, hq, hq1, hq2⟩ :=
        scoreLoopApp_spec exp hexp ts (flags.set (ix.getD 0) true) (tot + b)
          (by rw [List.length_set]; exact hlen)
      have hcf : countFalse (flags.set (ix.getD 0) true) + 1 = countFalse flags := by
        apply countFalse_set
        rw [hix]
        exact hfk
      refine ⟨q, hq, ?_, ?_⟩
      · have : (0 : ℚ) < b := by simpa using hpos
        linarith
      · have hb1' : b ≤ 1 := by simpa using hb1
        have : (countFalse (flags.set (ix.getD 0) true) : ℚ) + 1 = countFalse flags := by
          exact_mod_cast hcf
        linarith

theorem calculate_word_accuracy_app_spec (t e : List Char) :
    ∃ q, App.calculate_word_accuracy t e = some q ∧ 0 ≤ q ∧ q ≤ 100 := by
  unfold App.calculate_word_accuracy
  by_cases he : pySplit (App.clean_text e) = []
  · by_cases ht : pySplit (App.clean_text t) = []
    · exact ⟨100, by simp [he, ht], by norm_num, by norm_num⟩
    · exact ⟨0, by simp [he, ht], by norm_num, by norm_num⟩
  · by_cases ht : pySplit (App.clean_text t) = []
    · exact ⟨0, by simp [he, ht], by norm_num, by norm_num⟩
    · obtain ⟨q, hq, hq0, hq1⟩ :=
        scoreLoopApp_spec (pySplit (App.clean_text e)) (pySplit_ne_nil)
          (pySplit (App.clean_text t))
          (List.replicate (pySplit (App.clean_text e)).length false) 0
          (by simp)
      have hlen : 0 < (pySplit (App.clean_text e)).length := List.length_pos.mpr he
      have hlenQ : (0 : ℚ) < ((pySplit (App.clean_text e)).length : ℚ) := by
        exact_mod_cast hlen
      refine ⟨q / ((pySplit (App.clean_text e)).length : ℚ) * 100, ?_, ?_, ?_⟩
      · rw [if_neg he, if_neg ht, hq]
        simp only [pyDiv, if_neg (ne_of_gt hlenQ)]
        rfl
      · have h0 : (0 : ℚ) ≤ q := by simpa using hq0
        positivity
      · rw [countFalse_replicate] at hq1
        have hdiv : q / ((pySplit (App.clean_text e)).length : ℚ) ≤ 1 :=
          (div_le_one hlenQ).mpr (by simpa using hq1)
        nlinarith [hdiv]

/-! ### The two outer loops agree -/

theorem bestScan_pos (t : List Char) :
    ∀ (es : List (List Char)) (fs : List Bool) (i : Nat) (best : ℚ) (idx : Option Nat),
      (0 < best → idx ≠ none) →
      ∀ p : ℚ × Option Nat, bestScan t es fs i best idx = some p → 0 < p.1 → p.2 ≠ none
  | [], fs, i, best, idx, hinv, p, hp, hpos => by
    rw [bestScan_nil] at hp
    obtain rfl := (Option.some.injEq _ _).mp hp
    exact hinv hpos
  | e :: es, [], i, best, idx, hinv, p, hp, hpos => by
    rw [bestScan_no_flags] at hp
    simp at hp
  | e :: es, f :: fs, i, best, idx, hinv, p, hp, hpos => by
    by_cases hf : f = true
    · subst hf
      rw [bestScan_cons_true] at hp
      exact bestScan_pos t es fs (i + 1) best idx hinv p hp hpos
    · have hf' : f = false := by simpa using hf
      subst hf'
      cases hws : wordSim t e with
      | none =>
        rw [bestScan_cons_false_none t e es fs i best idx hws] at hp
        simp at hp
      | some s =>
        rw [bestScan_cons_false_some t e es fs i best idx s hws] at hp
        by_cases hlt : best < s
        · rw [if_pos hlt] at hp
          exact bestScan_pos t es fs (i + 1) s (some i) (fun _ => by simp) p hp hpos
        · rw [if_neg hlt] at hp
          exact bestScan_pos t es fs (i + 1) best idx hinv p hp hpos

theorem scoreLoop_app_eq_batch (exp : List (List Char)) :
    ∀ (ts : List (List Char)) (flags : List Bool) (tot : ℚ),
      scoreLoopApp exp ts flags tot = scoreLoopBatch exp ts flags tot
  | [], flags, tot => rfl
  | t :: ts, flags, tot => by
    cases hbs : bestScan t exp flags 0 0 none with
    | none =>
      rw [scoreLoopApp_cons_err exp t ts flags tot hbs,
        scoreLoopBatch_cons_err exp t ts flags tot hbs]
    | some p =>
      obtain ⟨b, ix⟩ := p
      rw [scoreLoopApp_cons exp t ts flags tot b ix hbs,
        scoreLoopBatch_cons exp t ts flags tot b ix hbs]
      by_cases hb : 0 < b
      · have hix : ix ≠ none :=
          bestScan_pos t exp flags 0 0 none (fun h => absurd h (lt_irrefl 0)) (b, ix) hbs hb
        rw [if_pos ⟨hb, hix⟩, if_pos hb, if_pos hix]
        exact scoreLoop_app_eq_batch exp ts _ _
      · rw [if_neg (fun hc => hb hc.1), if_neg hb]
        exact scoreLoop_app_eq_batch exp ts flags tot

theorem batch_clean_eq_app_clean (s : List Char)
    (hs : ∀ c ∈ s, pyIsAlnum c = true ∨ pyIsSpace c = true) :
    Batch.clean_text s = App.clean_text s := by
  unfold Batch.clean_text App.clean_text
  have hfilter : s.filter (fun c => pyIsWordChar c || pyIsSpace c) = s := by
    apply List.filter_eq_self.mpr
    intro a ha
    rcases hs a ha with h | h
    · simp [pyIsWordChar, h]
    · simp [h]
  rw [hfilter]

/-! ### Perfect self-matching of the diagonal -/

theorem bestScan_skip (t : List Char) :
    ∀ (A es : List (List Char)) (fs : List Bool) (i : Nat) (best : ℚ) (idx : Option Nat),
      bestScan t (A ++ es) (List.replicate A.length true ++ fs) i best idx =
        bestScan t es fs (i + A.length) best idx
  | [], es, fs, i, best, idx => by simp
  | a :: A, es, fs, i, best, idx => by
    simp only [List.cons_append, List.length_cons, List.replicate_succ]
    rw [bestScan_cons_true]
    rw [bestScan_skip t A es fs (i + 1) best idx]
    congr 1
    omega

theorem bestScan_sat (t : List Char) :
    ∀ (es : List (List Char)) (fs : List Bool) (i : Nat) (idx : Option Nat),
      es.length ≤ fs.length → (∀ e ∈ es, e ≠ []) →
      bestScan t es fs i 1 idx = some (1, idx)
  | [], fs, i, idx, _, _ => rfl
  | e :: es, [], i, idx, hlen, _ => by simp at hlen
  | e :: es, f :: fs, i, idx, hlen, hne => by
    have hlen' : es.length ≤ fs.length := by simpa using hlen
    have hne' : ∀ w ∈ es, w ≠ [] := fun w hw => hne w (List.mem_cons_of_mem _ hw)
    by_cases hf : f = true
    · subst hf
      rw [bestScan_cons_true]
      exact bestScan_sat t es fs (i + 1) idx hlen' hne'
    · have hf' : f = false := by simpa using hf
      subst hf'
      obtain ⟨s, hs, _, hs1⟩ := wordSim_bounds t e (hne e (List.mem_cons_self _ _))
      rw [bestScan_cons_false_some t e es fs i 1 idx s hs]
      rw [if_neg (not_lt.mpr hs1)]
      exact bestScan_sat t es fs (i + 1) idx hlen' hne'

theorem set_append_head (l₁ l₂ : List Bool) (a : Bool) :
    (l₁ ++ l₂).set l₁.length a = l₁ ++ l₂.set 0 a := by
  induction l₁ with
  | nil => rfl
  | cons x l₁ ih =>
    simp only [List.cons_append, List.length_cons, List.set]
    exact congrArg (fun l => x :: l) ih

theorem set_replicate_head (n : Nat) (l₂ : List Bool) (a : Bool) :
    (List.replicate n true ++ l₂).set n a = List.replicate n true ++ l₂.set 0 a := by
  have h := set_append_head (List.replicate n true) l₂ a
  rw [List.length_replicate] at h
  exact h

theorem scoreLoopApp_diag :
    ∀ (B A : List (List Char)) (tot : ℚ),
      (∀ w ∈ A ++ B, w ≠ []) →
      scoreLoopApp (A ++ B) B (List.replicate A.length true ++ List.replicate B.length false)
          tot
        = some (tot + (B.length : ℚ))
  | [], A, tot, _ => by
    rw [scoreLoopApp_nil]
    norm_num
  | b :: B, A, tot, h => by
    have hb : b ≠ [] := h b (by simp)
    have hBne : ∀ w ∈ B, w ≠ [] := fun w hw => h w (by simp [hw])
    have hscan :
        bestScan b (A ++ b :: B)
            (List.replicate A.length true ++ List.replicate (b :: B).length false) 0 0 none
          = some (1, some A.length) := by
      rw [show List.replicate (b :: B).length false
            = false :: List.replicate B.length false from rfl]
      rw [bestScan_skip]
      rw [bestScan_cons_false_some b b B (List.replicate B.length false) (0 + A.length) 0
        none 1 (wordSim_self b hb)]
      rw [if_pos (by norm_num : (0 : ℚ) < 1)]
      rw [bestScan_sat b B (List.replicate B.length false) (0 + A.length + 1)
        (some (0 + A.length)) (by simp) hBne]
      norm_num
    rw [scoreLoopApp_cons _ _ _ _ _ _ _ hscan]
    rw [if_pos ⟨by norm_num, by simp⟩]
    have hset :
        (List.replicate A.length true ++ List.replicate (b :: B).length false).set
            ((some A.length).getD 0) true
          = List.replicate (A ++ [b]).length true ++ List.replicate B.length false := by
      rw [show (some A.length).getD 0 = A.length from rfl]
      rw [show List.replicate (b :: B).length false
            = false :: List.replicate B.length false from rfl]
      rw [set_replicate_head]
      rw [show (false :: List.replicate B.length false).set 0 true
            = true :: List.replicate B.length false from rfl]
      rw [show (A ++ [b]).length = A.length + 1 by simp]
      rw [List.replicate_succ', List.append_assoc]
      rfl
    rw [hset]
    have hrec := scoreLoopApp_diag B (A ++ [b]) (tot + 1) (by
      intro w hw
      apply h w
      simpa [List.append_assoc] using hw)
    rw [show (A ++ [b]) ++ B = A ++ b :: B by simp] at hrec
    rw [hrec]
    congr 1
    push_cast [List.length_cons]
    ring

/-! ### Normalization is insensitive to case and surrounding whitespace -/

theorem dropWhile_space_append (u z : List Char) (hu : ∀ c ∈ u, pyIsSpace c = true) :
    (u ++ z).dropWhile pyIsSpace = z.dropWhile pyIsSpace := by
  induction u with
  | nil => rfl
  | cons c u ih =>
    rw [List.cons_append, List.dropWhile_cons, if_pos (hu c (List.mem_cons_self _ _))]
    exact ih fun c' hc' => hu c' (List.mem_cons_of_mem _ hc')

theorem dropWhile_append_of_ne_nil (x v : List Char) (hx : x.dropWhile pyIsSpace ≠ []) :
    (x ++ v).dropWhile pyIsSpace = x.dropWhile pyIsSpace ++ v := by
  induction x with
  | nil => exact absurd rfl hx
  | cons c x ih =>
    rw [List.cons_append, List.dropWhile_cons]
    by_cases hc : pyIsSpace c
    · rw [if_pos hc]
      rw [show (c :: x).dropWhile pyIsSpace = x.dropWhile pyIsSpace from by
        rw [List.dropWhile_cons, if_pos hc]]
      rw [List.dropWhile_cons, if_pos hc] at hx
      exact ih hx
    · rw [if_neg hc, List.dropWhile_cons, if_neg hc, List.cons_append]

theorem pyStrip_pad (x u v : List Char) (hu : ∀ c ∈ u, pyIsSpace c = true)
    (hv : ∀ c ∈ v, pyIsSpace c = true) : pyStrip (u ++ x ++ v) = pyStrip x := by
  unfold pyStrip
  rw [List.append_assoc, dropWhile_space_append u (x ++ v) hu]
  by_cases hx : x.dropWhile pyIsSpace = []
  · have hxsp : ∀ c ∈ x, pyIsSpace c = true := List.dropWhile_eq_nil_iff.mp hx
    rw [dropWhile_space_append x v hxsp, hx]
    rw [List.dropWhile_eq_nil_iff.mpr hv]
  · rw [dropWhile_append_of_ne_nil x v hx, List.reverse_append]
    rw [dropWhile_space_append v.reverse _ fun c hc => hv c (List.mem_reverse.mp hc)]

theorem map_pyToLower_space (u : List Char) (hu : ∀ c ∈ u, pyIsSpace c = true) :
    ∀ c ∈ u.map pyToLower, pyIsSpace c = true := by
  intro c hc
  obtain ⟨c', hc', rfl⟩ := List.mem_map.mp hc
  rw [pyIsSpace_pyToLower]
  exact hu c' hc'

theorem clean_text_app_pad (a u v : List Char) (hu : ∀ c ∈ u, pyIsSpace c = true)
    (hv : ∀ c ∈ v, pyIsSpace c = true) :
    App.clean_text (u ++ a ++ v) = App.clean_text a := by
  unfold App.clean_text
  rw [List.map_append, List.map_append]
  exact pyStrip_pad (a.map pyToLower) (u.map pyToLower) (v.map pyToLower)
    (map_pyToLower_space u hu) (map_pyToLower_space v hv)

theorem calculate_word_accuracy_app_congr {t t' e e' : List Char}
    (ht : App.clean_text t' = App.clean_text t) (he : App.clean_text e' = App.clean_text e) :
    App.calculate_word_accuracy t' e' = App.calculate_word_accuracy t e := by
  unfold App.calculate_word_accuracy
  rw [ht, he]

/-! ### Characters surviving the batch normalizer -/

theorem mem_batch_clean {c : Char} {s : List Char} (h : c ∈ Batch.clean_text s) :
    ∃ c', c = pyToLower c' ∧ (pyIsWordChar c' = true ∨ pyIsSpace c' = true) := by
  unfold Batch.clean_text at h
  have h1 := mem_of_mem_pyStrip h
  obtain ⟨c', hc', hlc⟩ := List.mem_map.mp h1
  have h2 := List.mem_filter.mp hc'
  refine ⟨c', hlc.symm, ?_⟩
  have := h2.2
  rcases Bool.or_eq_true _ _ |>.mp this with h' | h'
  · exact Or.inl h'
  · exact Or.inr h'

/-! ### Claims -/

/-- C1 (counterexample): `score_word_accuracy("the quick brown fox", "the quick fox")`
is not 100.0: the extra transcribed word "brown" is not ignored. -/
theorem C1_counterexample :
    score_word_accuracy ("the quick brown fox".toList) ("the quick fox".toList) ≠
      some 100 := by
  with_unfolding_all decide

/-- C1 (as amended): the score is 220/3 ≈ 73.33, not 100.0 and not 0: the
extra transcribed word "brown" greedily matches the still-unmatched
expected word "fox" with similarity 1/5, so the transcribed "fox" then
finds no unmatched candidate; the total is (1 + 1 + 1/5)/3 · 100 = 220/3,
which is nonzero as the spec requires. -/
theorem C1_corrected :
    score_word_accuracy ("the quick brown fox".toList) ("the quick fox".toList) =
        some (220 / 3) ∧
      score_word_accuracy ("the quick brown fox".toList) ("the quick fox".toList) ≠
        some 0 := by
  constructor
  · with_unfolding_all decide
  · with_unfolding_all decide

/-- C2 (counterexample): on two empty words the inline similarity
computation does not return 1.0 — it divides by zero, which raises
(modelled as `none`). -/
theorem C2_counterexample : wordSim [] [] = none ∧ wordSim [] [] ≠ some 1 := by
  with_unfolding_all decide

/-- C2 (as amended): the similarity computation has no special case for
two empty words; evaluated there it divides by zero. It is total
whenever at least one of the two words is nonempty, which holds at every
call site because the normalizer never emits empty words. -/
theorem C2_corrected (A B : List Char) (h : A ≠ [] ∨ B ≠ []) :
    ∃ s, wordSim A B = some s := by
  have hm : max A.length B.length ≠ 0 := by
    rcases h with h | h
    · have := List.length_pos.mpr h
      omega
    · have := List.length_pos.mpr h
      omega
  exact ⟨_, wordSim_eq A B hm⟩

/-- C2 (witness): the amended totality statement applied to the
words `"a"` and `""`. -/
theorem C2_witness :
    ((['a'] : List Char) ≠ [] ∨ (([] : List Char) ≠ [])) ∧
      ∃ s, wordSim ['a'] [] = some s :=
  ⟨Or.inl (by decide), C2_corrected ['a'] [] (Or.inl (by decide))⟩

/-- C3 (counterexample): the underscore is neither alphanumeric nor
whitespace, yet it survives the batch normalizer's `[^\w\s]` filter into
the resulting word sequence. -/
theorem C3_counterexample :
    pySplit (Batch.clean_text ['_']) = [['_']] ∧ pyIsAlnum '_' = false ∧
      pyIsSpace '_' = false := by
  decide

/-- C3 (as amended): every character surviving into the batch
evaluator's word sequence is a word character (alphanumeric or
underscore) and is not whitespace; the filter removes every character
outside `\w` and `\s`, but underscores pass it. -/
theorem C3_corrected (s : List Char) :
    ∀ w ∈ pySplit (Batch.clean_text s), ∀ c ∈ w,
      pyIsWordChar c = true ∧ pyIsSpace c = false := by
  intro w hw c hc
  obtain ⟨hsp, hcs⟩ := pySplit_chars hw hc
  obtain ⟨c', rfl, hclass⟩ := mem_batch_clean hcs
  rcases hclass with h | h
  · exact ⟨pyIsWordChar_pyToLower c' h, hsp⟩
  · rw [pyToLower_of_space c' h] at hsp ⊢
    rw [h] at hsp
    simp at hsp

/-- C3 (witness): the amended statement applied to the input `"ab"`,
its word `['a', 'b']` and the character `'a'`. -/
theorem C3_witness :
    (['a', 'b'] ∈ pySplit (Batch.clean_text ['a', 'b'])) ∧
      ('a' ∈ (['a', 'b'] : List Char)) ∧
      pyIsWordChar 'a' = true ∧ pyIsSpace 'a' = false :=
  ⟨by decide, by decide, C3_corrected ['a', 'b'] ['a', 'b'] (by decide) 'a' (by decide)⟩

/-- C4: if the expected word sequence is empty the scorer returns 100.0
when the transcribed word sequence is also empty and 0.0 otherwise; if
the expected sequence is nonempty and the transcribed sequence is
empty, it returns 0.0. -/
theorem C4_degenerate (t e : List Char) :
    (pySplit (App.clean_text e) = [] → pySplit (App.clean_text t) = [] →
        score_word_accuracy t e = some 100) ∧
    (pySplit (App.clean_text e) = [] → pySplit (App.clean_text t) ≠ [] →
        score_word_accuracy t e = some 0) ∧
    (pySplit (App.clean_text e) ≠ [] → pySplit (App.clean_text t) = [] →
        score_word_accuracy t e = some 0) := by
  unfold score_word_accuracy App.calculate_word_accuracy
  refine ⟨fun he ht => ?_, fun he ht => ?_, fun he ht => ?_⟩ <;> simp [he, ht]

/-- C4 (witness): the three degenerate rules applied to the concrete
pairs `("", "")`, `("a", "")` and `("", "a")`. -/
theorem C4_witness :
    score_word_accuracy [] [] = some 100 ∧
      score_word_accuracy ['a'] [] = some 0 ∧
      score_word_accuracy [] ['a'] = some 0 :=
  ⟨(C4_degenerate [] []).1 (by decide) (by decide),
    (C4_degenerate ['a'] []).2.1 (by decide) (by decide),
    (C4_degenerate [] ['a']).2.2 (by decide) (by decide)⟩

/-- C5: for every pair of input strings the scorer returns a value in
the closed range [0, 100]. -/
theorem C5_range (t e : List Char) :
    ∃ q, score_word_accuracy t e = some q ∧ 0 ≤ q ∧ q ≤ 100 :=
  calculate_word_accuracy_app_spec t e

/-- C6: for every nonempty string whose normalized word sequence has no
repeated words, scoring the string against itself yields 100.0. -/
theorem C6_self_score (s : List Char) (_hne : s ≠ [])
    (_hnd : (pySplit (App.clean_text s)).Nodup) :
    score_word_accuracy s s = some 100 := by
  unfold score_word_accuracy App.calculate_word_accuracy
  by_cases hw : pySplit (App.clean_text s) = []
  · simp [hw]
  · rw [if_neg hw, if_neg hw]
    have hdiag := scoreLoopApp_diag (pySplit (App.clean_text s)) [] 0
      (fun w hw' => pySplit_ne_nil w (by simpa using hw'))
    rw [List.length_nil, List.replicate_zero, List.nil_append, List.nil_append] at hdiag
    rw [hdiag]
    have hn : ((pySplit (App.clean_text s)).length : ℚ) ≠ 0 := by
      have := List.length_pos.mpr hw
      exact_mod_cast Nat.pos_iff_ne_zero.mp this
    rw [show (0 : ℚ) + ((pySplit (App.clean_text s)).length : ℚ)
          = ((pySplit (App.clean_text s)).length : ℚ) by ring]
    simp only [pyDiv, if_neg hn, Option.map_some']
    rw [div_self hn]
    norm_num

/-- C6 (witness): the self-scoring property applied to the string `"a"`. -/
theorem C6_witness :
    (("a".toList : List Char) ≠ [] ∧ (pySplit (App.clean_text "a".toList)).Nodup) ∧
      score_word_accuracy ("a".toList) ("a".toList) = some 100 :=
  ⟨⟨by decide, by decide⟩, C6_self_score "a".toList (by decide) (by decide)⟩

/-- C7: neither the letter case of the arguments (replacing a string by
one with the same per-character lowercasing) nor leading/trailing
whitespace affects the score, and the concrete pair
`("HELLO world", "hello WORLD")` scores 100.0. -/
theorem C7_case_whitespace_invariance :
    (∀ a b a' b' : List Char,
        a'.map pyToLower = a.map pyToLower →
        b'.map pyToLower = b.map pyToLower →
        score_word_accuracy a' b' = score_word_accuracy a b) ∧
    (∀ a b u v u' v' : List Char,
        (∀ c ∈ u, pyIsSpace c = true) → (∀ c ∈ v, pyIsSpace c = true) →
        (∀ c ∈ u', pyIsSpace c = true) → (∀ c ∈ v', pyIsSpace c = true) →
        score_word_accuracy (u ++ a ++ v) (u' ++ b ++ v') = score_word_accuracy a b) ∧
    score_word_accuracy ("HELLO world".toList) ("hello WORLD".toList) = some 100 := by
  refine ⟨?_, ?_, ?_⟩
  · intro a b a' b' ha hb
    unfold score_word_accuracy
    apply calculate_word_accuracy_app_congr
    · unfold App.clean_text
      rw [ha]
    · unfold App.clean_text
      rw [hb]
  · intro a b u v u' v' hu hv hu' hv'
    unfold score_word_accuracy
    exact calculate_word_accuracy_app_congr (clean_text_app_pad a u v hu hv)
      (clean_text_app_pad b u' v' hu' hv')
  · with_unfolding_all decide

/-- C7 (witness): the case part applied to `("A", "a")` against
`("a", "a")`, and the whitespace part applied to `" a "` against `"a"`. -/
theorem C7_witness :
    ("A".toList.map pyToLower = "a".toList.map pyToLower ∧
      score_word_accuracy ("A".toList) ("a".toList) =
        score_word_accuracy ("a".toList) ("a".toList)) ∧
    ((∀ c ∈ (" ".toList : List Char), pyIsSpace c = true) ∧
      score_word_accuracy (" ".toList ++ "a".toList ++ " ".toList)
          (" ".toList ++ "a".toList ++ " ".toList) =
        score_word_accuracy ("a".toList) ("a".toList)) :=
  ⟨⟨by decide,
      C7_case_whitespace_invariance.1 "a".toList "a".toList "A".toList "a".toList
        (by decide) (by decide)⟩,
    ⟨by decide,
      C7_case_whitespace_invariance.2.1 "a".toList "a".toList " ".toList " ".toList
        " ".toList " ".toList (by decide) (by decide) (by decide) (by decide)⟩⟩

/-- C8: the scorer is total — it never raises for any pair of input
strings, because splitting on whitespace yields only nonempty words and
so every division is well defined. -/
theorem C8_totality (t e : List Char) : ∃ q, score_word_accuracy t e = some q := by
  obtain ⟨q, hq, -, -⟩ := calculate_word_accuracy_app_spec t e
  exact ⟨q, hq⟩

/-- C9: the scorer is not commutative — the strings `"ab"` and
`"ab cd"`, whose normalized word sequences have different lengths,
score 50.0 in one order and 100.0 in the other. -/
theorem C9_not_commutative :
    ∃ a b : List Char,
      (pySplit (App.clean_text a)).length ≠ (pySplit (App.clean_text b)).length ∧
        score_word_accuracy a b ≠ score_word_accuracy b a := by
  refine ⟨"ab".toList, "ab cd".toList, ?_, ?_⟩
  · decide
  · with_unfolding_all decide

/-- C10: on inputs made only of alphanumeric and whitespace characters
(where the two normalizers agree) the two scorer implementations return
the same value, despite the differently-factored guard of the flag
update. -/
theorem C10_equivalence (t e : List Char)
    (ht : ∀ c ∈ t, pyIsAlnum c = true ∨ pyIsSpace c = true)
    (he : ∀ c ∈ e, pyIsAlnum c = true ∨ pyIsSpace c = true) :
    App.calculate_word_accuracy t e = Batch.calculate_word_accuracy t e := by
  unfold App.calculate_word_accuracy Batch.calculate_word_accuracy
  rw [batch_clean_eq_app_clean t ht, batch_clean_eq_app_clean e he]
  simp only [scoreLoop_app_eq_batch]

/-- C10 (witness): the equivalence applied to the concrete pair
`("ab cd", "ab")`. -/
theorem C10_witness :
    (∀ c ∈ "ab cd".toList, pyIsAlnum c = true ∨ pyIsSpace c = true) ∧
      App.calculate_word_accuracy ("ab cd".toList) ("ab".toList) =
        Batch.calculate_word_accuracy ("ab cd".toList) ("ab".toList) :=
  ⟨by decide, C10_equivalence ("ab cd".toList) ("ab".toList) (by decide) (by decide)⟩
